import Mathlib

/-!
Verification of the market-regime segmentation core of `src/app.py`
(`identify_market_phases`, lines 370-424), the percent-change derivation
(line 123) and the forecast window reshaping (lines 861-877), over a
shallow embedding with exact rationals.

The price series is modelled positionally as a `List ℚ`: `series.iloc[i]`
is the list entry at position `i` and `series.index[i]` is the position
`i` itself, so the two timestamp components of each emitted tuple coincide
with the index components and are not duplicated in the `Phase` record.
-/

namespace App

/-- Regime kind of a market phase. -/
inductive Kind : Type
  | Bull : Kind
  | Bear : Kind
  deriving DecidableEq, Repr

/-- One emitted phase.  The source emits tuples
`(start_idx, e, series.index[start_idx], series.index[e], refA, refB, magnitude)`;
`ref1`/`ref2` are the fifth and sixth tuple components:
`(trough, peak)` for a Bull tuple and `(peak, trough)` for a Bear tuple. -/
structure Phase : Type where
  kind : Kind
  start_index : ℕ
  end_index : ℕ
  ref1 : ℚ
  ref2 : ℚ
  magnitude : ℚ
  deriving DecidableEq, Repr

/-- The trough of a Bull phase, the trough of a Bear phase (spec §3). -/
def Phase.reference_low (p : Phase) : ℚ :=
  match p.kind with
  | Kind.Bull => p.ref1
  | Kind.Bear => p.ref2

/-- The peak of a Bull phase, the peak of a Bear phase (spec §3). -/
def Phase.reference_high (p : Phase) : ℚ :=
  match p.kind with
  | Kind.Bull => p.ref2
  | Kind.Bear => p.ref1

/-- The scan state of `identify_market_phases`: the flags `in_bull`/`in_bear`,
`start_idx`, the running `peak` and `trough`, and the phases emitted so far in
emission order, each tagged with its kind.  The source appends Bull tuples to
`bull_markets` and Bear tuples to `bear_markets`; the two lists are recovered
by filtering on the tag, which preserves each list's append order. -/
structure ScanState : Type where
  in_bull : Bool
  in_bear : Bool
  start_idx : ℕ
  peak : ℚ
  trough : ℚ
  phases : List Phase
  deriving DecidableEq, Repr

/-- The Bull tuple `(start_idx, e, trough, peak, (peak - trough) / trough)`. -/
def closeBull (st : ScanState) (e : ℕ) : Phase :=
  ⟨Kind.Bull, st.start_idx, e, st.trough, st.peak, (st.peak - st.trough) / st.trough⟩

/-- The Bear tuple `(start_idx, e, peak, trough, (trough - peak) / peak)`. -/
def closeBear (st : ScanState) (e : ℕ) : Phase :=
  ⟨Kind.Bear, st.start_idx, e, st.peak, st.trough, (st.trough - st.peak) / st.peak⟩

/-- One iteration of the scan loop for index `i` with value `v`
(src/app.py:381-414): the Bull confirmation `if not in_bull and
current_price >= trough * (1 + threshold)` (closing an open Bear phase with
end index `i - 1`), the `elif` Bear confirmation `current_price <=
peak * (1 - threshold)` (closing an open Bull phase), then the separate
peak/trough update `if in_bull and current_price > peak ... elif in_bear and
current_price < trough ...`. -/
def step (t : ℚ) (st : ScanState) (i : ℕ) (v : ℚ) : ScanState :=
  let st1 : ScanState :=
    if st.in_bull = false ∧ st.trough * (1 + t) ≤ v then
      ⟨true, false, i, st.peak, v,
        if st.in_bear = true then st.phases ++ [closeBear st (i - 1)] else st.phases⟩
    else if st.in_bear = false ∧ v ≤ st.peak * (1 - t) then
      ⟨false, true, i, v, st.trough,
        if st.in_bull = true then st.phases ++ [closeBull st (i - 1)] else st.phases⟩
    else st
  if st1.in_bull = true ∧ st1.peak < v then
    ⟨st1.in_bull, st1.in_bear, st1.start_idx, v, st1.trough, st1.phases⟩
  else if st1.in_bear = true ∧ v < st1.trough then
    ⟨st1.in_bull, st1.in_bear, st1.start_idx, st1.peak, v, st1.phases⟩
  else st1

/-- `for i in range(1, len(series))`: `rest` holds the values at positions
`i, i+1, ...` of the series. -/
def loop (t : ℚ) (st : ScanState) (i : ℕ) (rest : List ℚ) : ScanState :=
  match rest with
  | [] => st
  | v :: vs => loop t (step t st i v) (i + 1) vs

/-- The post-loop flush (src/app.py:416-422): if a phase is open, emit it
with end index `len(series) - 1`. -/
def flush (st : ScanState) (n : ℕ) : List Phase :=
  if st.in_bull = true then st.phases ++ [closeBull st (n - 1)]
  else if st.in_bear = true then st.phases ++ [closeBear st (n - 1)]
  else st.phases

/-- The scan state after the loop, starting from
`peak = trough = series.iloc[0]`, both flags `False`, `start_idx = 0`;
`none` for the empty series, where `series.iloc[0]` raises. -/
def finalState (s : List ℚ) (t : ℚ) : Option ScanState :=
  match s with
  | [] => none
  | v0 :: rest => some (loop t ⟨false, false, 0, v0, v0, []⟩ 1 rest)

/-- All phases emitted by `identify_market_phases`, in emission order (the
bull and bear outputs merged by position). -/
def segment (s : List ℚ) (t : ℚ) : Option (List Phase) :=
  (finalState s t).map (fun st => flush st s.length)

/-- Whether a phase is tagged Bull. -/
def isBull (p : Phase) : Bool :=
  match p.kind with
  | Kind.Bull => true
  | Kind.Bear => false

/-- Whether a phase is tagged Bear. -/
def isBear (p : Phase) : Bool :=
  match p.kind with
  | Kind.Bull => false
  | Kind.Bear => true

/-- `identify_market_phases(series, threshold)` (src/app.py:370-424): the
returned pair `(bull_markets, bear_markets)`. -/
def identify_market_phases (s : List ℚ) (t : ℚ) : Option (List Phase × List Phase) :=
  (segment s t).map (fun ps => (ps.filter isBull, ps.filter isBear))

/-- src/app.py:123 `df['price_pct_change'] = df['petrol_price'].pct_change() * 100`.
pandas `pct_change` at position `t ≥ 1` is `(p[t] - p[t-1]) / p[t-1]`, `NaN`
at position `0`; the missing first entry is modelled as `none`. -/
def price_pct_change (prices : List ℚ) : List (Option ℚ) :=
  match prices with
  | [] => []
  | _ :: tail =>
    none :: List.zipWith (fun prev cur => some ((cur - prev) / prev * 100)) prices tail

/-- One row of the model output kept by the adapter:
`forecast[['ds','yhat','yhat_lower','yhat_upper']]` (src/app.py:867), with
the timestamp `ds` modelled as an integer. -/
structure ForecastRow : Type where
  ds : ℤ
  yhat : ℚ
  yhat_lower : ℚ
  yhat_upper : ℚ
  deriving DecidableEq, Repr

/-- src/app.py:872-875: keep the rows with `start_dt <= ds <= next_dt`; the
rows themselves pass through unchanged. -/
def forecastWindow (rows : List ForecastRow) (start_dt next_dt : ℤ) : List ForecastRow :=
  rows.filter (fun r => decide (start_dt ≤ r.ds ∧ r.ds ≤ next_dt))

/-! ### The loop invariant -/

/-- Relation between consecutively emitted phases: strictly later in time and
of the opposite kind. -/
def PhasesRel (p q : Phase) : Prop :=
  p.end_index < q.start_index ∧ p.kind ≠ q.kind

/-- What holds of every emitted phase over series `s`: a well-formed index
range, `ref1` equal to the series value at the start index (the confirming
value), `ref2` a series value observed no later than the end index,
magnitude `(ref2 - ref1) / ref1`, and `ref1 ≤ ref2` for Bull,
`ref2 ≤ ref1` for Bear. -/
def EmittedOK (s : List ℚ) (p : Phase) : Prop :=
  p.start_index ≤ p.end_index ∧
  s.get? p.start_index = some p.ref1 ∧
  (∃ j, j ≤ p.end_index ∧ s.get? j = some p.ref2) ∧
  p.magnitude = (p.ref2 - p.ref1) / p.ref1 ∧
  (p.kind = Kind.Bull → p.ref1 ≤ p.ref2) ∧
  (p.kind = Kind.Bear → p.ref2 ≤ p.ref1)

/-- The scan invariant, holding between loop iterations; `i` is the next
index to be processed. -/
structure Inv (s : List ℚ) (st : ScanState) (i : ℕ) : Prop where
  not_both : ¬(st.in_bull = true ∧ st.in_bear = true)
  tr_le_pk : st.trough ≤ st.peak
  peak_mem : ∃ j, j < i ∧ s.get? j = some st.peak
  trough_mem : ∃ j, j < i ∧ s.get? j = some st.trough
  bull_ref : st.in_bull = true → s.get? st.start_idx = some st.trough
  bear_ref : st.in_bear = true → s.get? st.start_idx = some st.peak
  start_lt : st.in_bull = true ∨ st.in_bear = true → st.start_idx < i
  inactive : st.in_bull = false → st.in_bear = false → st.phases = []
  closed_lt : ∀ p ∈ st.phases, p.end_index < st.start_idx
  chain : st.phases.Chain' PhasesRel
  last_opp : ∀ p, st.phases.getLast? = some p →
    (st.in_bull = true → p.kind = Kind.Bear) ∧ (st.in_bear = true → p.kind = Kind.Bull)
  emitted : ∀ p ∈ st.phases, EmittedOK s p

theorem closeBull_ok (s : List ℚ) (st : ScanState) (e : ℕ)
    (h1 : st.start_idx ≤ e) (h2 : s.get? st.start_idx = some st.trough)
    (h3 : ∃ j, j ≤ e ∧ s.get? j = some st.peak) (h4 : st.trough ≤ st.peak) :
    EmittedOK s (closeBull st e) := by
  refine ⟨h1, h2, h3, rfl, fun _ => h4, ?_⟩
  intro hk
  exact absurd hk (by simp [closeBull])

theorem closeBear_ok (s : List ℚ) (st : ScanState) (e : ℕ)
    (h1 : st.start_idx ≤ e) (h2 : s.get? st.start_idx = some st.peak)
    (h3 : ∃ j, j ≤ e ∧ s.get? j = some st.trough) (h4 : st.trough ≤ st.peak) :
    EmittedOK s (closeBear st e) := by
  refine ⟨h1, h2, h3, rfl, ?_, fun _ => h4⟩
  intro hk
  exact absurd hk (by simp [closeBear])

/-- Appending a freshly closed phase preserves the bundle of per-phase facts. -/
theorem concat_phase_inv (s : List ℚ) (ph : List Phase) (p : Phase) (k : ℕ)
    (hch : ph.Chain' PhasesRel) (hcl : ∀ q ∈ ph, q.end_index < p.start_index)
    (hlast : ∀ q, ph.getLast? = some q → q.kind ≠ p.kind)
    (hem : ∀ q ∈ ph, EmittedOK s q) (hp : EmittedOK s p)
    (hclk : ∀ q ∈ ph, q.end_index < k) (hpk : p.end_index < k) :
    (ph ++ [p]).Chain' PhasesRel ∧ (∀ q ∈ ph ++ [p], q.end_index < k) ∧
      (∀ q ∈ ph ++ [p], EmittedOK s q) := by
  refine ⟨?_, ?_, ?_⟩
  · refine List.chain'_append.mpr ⟨hch, List.chain'_singleton p, ?_⟩
    intro x hx y hy
    simp only [List.head?, Option.mem_def, Option.some.injEq] at hy
    subst hy
    have hxm : x ∈ ph := List.mem_of_mem_getLast? hx
    exact ⟨hcl x hxm, hlast x hx⟩
  · intro q hq
    rcases List.mem_append.mp hq with hq | hq
    · exact hclk q hq
    · rw [List.mem_singleton.mp hq]; exact hpk
  · intro q hq
    rcases List.mem_append.mp hq with hq | hq
    · exact hem q hq
    · rw [List.mem_singleton.mp hq]; exact hp

/-- The invariant is monotone in the position. -/
theorem inv_succ (s : List ℚ) (st : ScanState) (i : ℕ) (h : Inv s st i) :
    Inv s st (i + 1) :=
  ⟨h.not_both, h.tr_le_pk,
    h.peak_mem.imp fun _ hj => ⟨Nat.lt_succ_of_lt hj.1, hj.2⟩,
    h.trough_mem.imp fun _ hj => ⟨Nat.lt_succ_of_lt hj.1, hj.2⟩,
    h.bull_ref, h.bear_ref,
    fun hm => Nat.lt_succ_of_lt (h.start_lt hm),
    h.inactive, h.closed_lt, h.chain, h.last_opp, h.emitted⟩

/-- Raising the running peak to the current value preserves the invariant. -/
theorem inv_peak_update (s : List ℚ) (st : ScanState) (i : ℕ) (v : ℚ)
    (h : Inv s st i) (hbl : st.in_bull = true) (hv : s.get? i = some v)
    (hpv : st.peak ≤ v) :
    Inv s ⟨st.in_bull, st.in_bear, st.start_idx, v, st.trough, st.phases⟩ (i + 1) :=
  ⟨h.not_both, le_trans h.tr_le_pk hpv,
    ⟨i, Nat.lt_succ_self i, hv⟩,
    h.trough_mem.imp fun _ hj => ⟨Nat.lt_succ_of_lt hj.1, hj.2⟩,
    fun _ => h.bull_ref hbl,
    fun hbr => absurd ⟨hbl, hbr⟩ h.not_both,
    fun _ => Nat.lt_succ_of_lt (h.start_lt (Or.inl hbl)),
    (fun hf => nomatch (hbl.symm.trans hf)),
    h.closed_lt, h.chain, h.last_opp, h.emitted⟩

/-- Lowering the running trough to the current value preserves the invariant. -/
theorem inv_trough_update (s : List ℚ) (st : ScanState) (i : ℕ) (v : ℚ)
    (h : Inv s st i) (hbr : st.in_bear = true) (hv : s.get? i = some v)
    (hvt : v ≤ st.trough) :
    Inv s ⟨st.in_bull, st.in_bear, st.start_idx, st.peak, v, st.phases⟩ (i + 1) :=
  ⟨h.not_both, le_trans hvt h.tr_le_pk,
    h.peak_mem.imp fun _ hj => ⟨Nat.lt_succ_of_lt hj.1, hj.2⟩,
    ⟨i, Nat.lt_succ_self i, hv⟩,
    fun hbl => absurd ⟨hbl, hbr⟩ h.not_both,
    fun _ => h.bear_ref hbr,
    fun _ => Nat.lt_succ_of_lt (h.start_lt (Or.inr hbr)),
    (fun _ hf => nomatch (hbr.symm.trans hf)),
    h.closed_lt, h.chain, h.last_opp, h.emitted⟩

/-- A state that has just confirmed (or is continuing) a Bull phase at index
`i` satisfies the invariant at `i + 1`. -/
theorem inv_bull_state (s : List ℚ) (i : ℕ) (v P : ℚ) (ph2 : List Phase)
    (hv : s.get? i = some v) (hvP : v ≤ P)
    (hPm : ∃ j, j < i + 1 ∧ s.get? j = some P)
    (hcl : ∀ q ∈ ph2, q.end_index < i) (hch : ph2.Chain' PhasesRel)
    (hlast : ∀ p, ph2.getLast? = some p → p.kind = Kind.Bear)
    (hem : ∀ q ∈ ph2, EmittedOK s q) :
    Inv s ⟨true, false, i, P, v, ph2⟩ (i + 1) :=
  ⟨(fun hc => nomatch hc.2), hvP, hPm, ⟨i, Nat.lt_succ_self i, hv⟩,
    fun _ => hv, (fun hf => nomatch hf), fun _ => Nat.lt_succ_self i,
    (fun hf => nomatch hf), hcl, hch,
    (fun p hp => ⟨fun _ => hlast p hp, (fun hf => nomatch hf)⟩), hem⟩

/-- A state that has just confirmed (or is continuing) a Bear phase at index
`i` satisfies the invariant at `i + 1`. -/
theorem inv_bear_state (s : List ℚ) (i : ℕ) (v T : ℚ) (ph2 : List Phase)
    (hv : s.get? i = some v) (hTv : T ≤ v)
    (hTm : ∃ j, j < i + 1 ∧ s.get? j = some T)
    (hcl : ∀ q ∈ ph2, q.end_index < i) (hch : ph2.Chain' PhasesRel)
    (hlast : ∀ p, ph2.getLast? = some p → p.kind = Kind.Bull)
    (hem : ∀ q ∈ ph2, EmittedOK s q) :
    Inv s ⟨false, true, i, v, T, ph2⟩ (i + 1) :=
  ⟨(fun hc => nomatch hc.1), hTv, ⟨i, Nat.lt_succ_self i, hv⟩, hTm,
    (fun hf => nomatch hf), fun _ => hv, fun _ => Nat.lt_succ_self i,
    (fun _ hf => nomatch hf), hcl, hch,
    (fun p hp => ⟨(fun hf => nomatch hf), fun _ => hlast p hp⟩), hem⟩

/-- One loop iteration preserves the invariant. -/
theorem inv_step (s : List ℚ) (t : ℚ) (st : ScanState) (i : ℕ) (v : ℚ)
    (hi : 1 ≤ i) (hv : s.get? i = some v) (h : Inv s st i) :
    Inv s (step t st i v) (i + 1) := by
  obtain ⟨bl, br, si, pk, tr, ph⟩ := st
  cases bl with
  | false =>
    cases br with
    | false =>
      have hph : ph = [] := h.inactive rfl rfl
      subst hph
      by_cases hA : tr * (1 + t) ≤ v
      · by_cases hup : pk < v
        · have hstep : step t ⟨false, false, si, pk, tr, []⟩ i v =
              ⟨true, false, i, v, v, []⟩ := by
            simp [step, hA, hup]
          rw [hstep]
          exact inv_bull_state s i v v [] hv (le_refl v) ⟨i, Nat.lt_succ_self i, hv⟩
            (by simp) List.chain'_nil (by simp) (by simp)
        · have hstep : step t ⟨false, false, si, pk, tr, []⟩ i v =
              ⟨true, false, i, pk, v, []⟩ := by
            simp [step, hA, hup]
          rw [hstep]
          exact inv_bull_state s i v pk [] hv (le_of_not_lt hup)
            (h.peak_mem.imp fun _ hj => ⟨Nat.lt_succ_of_lt hj.1, hj.2⟩)
            (by simp) List.chain'_nil (by simp) (by simp)
      · by_cases hB : v ≤ pk * (1 - t)
        · by_cases hdw : v < tr
          · have hstep : step t ⟨false, false, si, pk, tr, []⟩ i v =
                ⟨false, true, i, v, v, []⟩ := by
              simp [step, hA, hB, hdw]
            rw [hstep]
            exact inv_bear_state s i v v [] hv (le_refl v) ⟨i, Nat.lt_succ_self i, hv⟩
              (by simp) List.chain'_nil (by simp) (by simp)
          · have hstep : step t ⟨false, false, si, pk, tr, []⟩ i v =
                ⟨false, true, i, v, tr, []⟩ := by
              simp [step, hA, hB, hdw]
            rw [hstep]
            exact inv_bear_state s i v tr [] hv (le_of_not_lt hdw)
              (h.trough_mem.imp fun _ hj => ⟨Nat.lt_succ_of_lt hj.1, hj.2⟩)
              (by simp) List.chain'_nil (by simp) (by simp)
        · have hstep : step t ⟨false, false, si, pk, tr, []⟩ i v =
              ⟨false, false, si, pk, tr, []⟩ := by
            simp [step, hA, hB]
          rw [hstep]
          exact inv_succ s _ i h
    | true =>
      by_cases hA : tr * (1 + t) ≤ v
      · have hsi : si < i := h.start_lt (Or.inr rfl)
        have hbundle := concat_phase_inv s ph
          (closeBear ⟨false, true, si, pk, tr, ph⟩ (i - 1)) i
          h.chain (fun q hq => h.closed_lt q hq)
          (fun q hq => by
            rw [(h.last_opp q hq).2 rfl]
            simp [closeBear])
          h.emitted
          (closeBear_ok s ⟨false, true, si, pk, tr, ph⟩ (i - 1) (by simp; omega)
            (h.bear_ref rfl)
            (h.trough_mem.imp fun j hj => ⟨by omega, hj.2⟩) h.tr_le_pk)
          (fun q hq => lt_trans (h.closed_lt q hq) hsi)
          (by simp [closeBear]; omega)
        have hlast2 : ∀ p, (ph ++ [closeBear ⟨false, true, si, pk, tr, ph⟩ (i - 1)]).getLast? =
            some p → p.kind = Kind.Bear := by
          intro p hp
          rw [List.getLast?_concat] at hp
          simp only [Option.some.injEq] at hp
          subst hp
          rfl
        by_cases hup : pk < v
        · have hstep : step t ⟨false, true, si, pk, tr, ph⟩ i v =
              ⟨true, false, i, v, v,
                ph ++ [closeBear ⟨false, true, si, pk, tr, ph⟩ (i - 1)]⟩ := by
            simp [step, hA, hup]
          rw [hstep]
          exact inv_bull_state s i v v _ hv (le_refl v) ⟨i, Nat.lt_succ_self i, hv⟩
            hbundle.2.1 hbundle.1 hlast2 hbundle.2.2
        · have hstep : step t ⟨false, true, si, pk, tr, ph⟩ i v =
              ⟨true, false, i, pk, v,
                ph ++ [closeBear ⟨false, true, si, pk, tr, ph⟩ (i - 1)]⟩ := by
            simp [step, hA, hup]
          rw [hstep]
          exact inv_bull_state s i v pk _ hv (le_of_not_lt hup)
            (h.peak_mem.imp fun _ hj => ⟨Nat.lt_succ_of_lt hj.1, hj.2⟩)
            hbundle.2.1 hbundle.1 hlast2 hbundle.2.2
      · by_cases hdw : v < tr
        · have hstep : step t ⟨false, true, si, pk, tr, ph⟩ i v =
              ⟨false, true, si, pk, v, ph⟩ := by
            simp [step, hA, hdw]
          rw [hstep]
          exact inv_trough_update s ⟨false, true, si, pk, tr, ph⟩ i v h rfl hv (le_of_lt hdw)
        · have hstep : step t ⟨false, true, si, pk, tr, ph⟩ i v =
              ⟨false, true, si, pk, tr, ph⟩ := by
            simp [step, hA, hdw]
          rw [hstep]
          exact inv_succ s _ i h
  | true =>
    cases br with
    | true => exact absurd ⟨rfl, rfl⟩ h.not_both
    | false =>
      by_cases hB : v ≤ pk * (1 - t)
      · have hsi : si < i := h.start_lt (Or.inl rfl)
        have hbundle := concat_phase_inv s ph
          (closeBull ⟨true, false, si, pk, tr, ph⟩ (i - 1)) i
          h.chain (fun q hq => h.closed_lt q hq)
          (fun q hq => by
            rw [(h.last_opp q hq).1 rfl]
            simp [closeBull])
          h.emitted
          (closeBull_ok s ⟨true, false, si, pk, tr, ph⟩ (i - 1) (by simp; omega)
            (h.bull_ref rfl)
            (h.peak_mem.imp fun j hj => ⟨by omega, hj.2⟩) h.tr_le_pk)
          (fun q hq => lt_trans (h.closed_lt q hq) hsi)
          (by simp [closeBull]; omega)
        have hlast2 : ∀ p, (ph ++ [closeBull ⟨true, false, si, pk, tr, ph⟩ (i - 1)]).getLast? =
            some p → p.kind = Kind.Bull := by
          intro p hp
          rw [List.getLast?_concat] at hp
          simp only [Option.some.injEq] at hp
          subst hp
          rfl
        by_cases hdw : v < tr
        · have hstep : step t ⟨true, false, si, pk, tr, ph⟩ i v =
              ⟨false, true, i, v, v,
                ph ++ [closeBull ⟨true, false, si, pk, tr, ph⟩ (i - 1)]⟩ := by
            simp [step, hB, hdw]
          rw [hstep]
          exact inv_bear_state s i v v _ hv (le_refl v) ⟨i, Nat.lt_succ_self i, hv⟩
            hbundle.2.1 hbundle.1 hlast2 hbundle.2.2
        · have hstep : step t ⟨true, false, si, pk, tr, ph⟩ i v =
              ⟨false, true, i, v, tr,
                ph ++ [closeBull ⟨true, false, si, pk, tr, ph⟩ (i - 1)]⟩ := by
            simp [step, hB, hdw]
          rw [hstep]
          exact inv_bear_state s i v tr _ hv (le_of_not_lt hdw)
            (h.trough_mem.imp fun _ hj => ⟨Nat.lt_succ_of_lt hj.1, hj.2⟩)
            hbundle.2.1 hbundle.1 hlast2 hbundle.2.2
      · by_cases hup : pk < v
        · have hstep : step t ⟨true, false, si, pk, tr, ph⟩ i v =
              ⟨true, false, si, v, tr, ph⟩ := by
            simp [step, hB, hup]
          rw [hstep]
          exact inv_peak_update s ⟨true, false, si, pk, tr, ph⟩ i v h rfl hv (le_of_lt hup)
        · have hstep : step t ⟨true, false, si, pk, tr, ph⟩ i v =
              ⟨true, false, si, pk, tr, ph⟩ := by
            simp [step, hB, hup]
          rw [hstep]
          exact inv_succ s _ i h

/-- The invariant is preserved along the whole loop. -/
theorem inv_loop (s : List ℚ) (t : ℚ) :
    ∀ (rest : List ℚ) (st : ScanState) (i : ℕ), 1 ≤ i → s.drop i = rest →
      Inv s st i → Inv s (loop t st i rest) (i + rest.length) := by
  intro rest
  induction rest with
  | nil =>
    intro st i _ _ h
    simpa [loop] using h
  | cons v vs ih =>
    intro st i hi hdrop h
    have hv : s.get? i = some v := by
      have hh : (s.drop i).get? 0 = some v := by rw [hdrop]; rfl
      rwa [List.get?_drop, Nat.add_zero] at hh
    have hdrop' : s.drop (i + 1) = vs := by
      have hh : (s.drop i).drop 1 = vs := by rw [hdrop]; rfl
      rwa [List.drop_drop] at hh
    have hrec := ih (step t st i v) (i + 1) (by omega) hdrop'
      (inv_step s t st i v hi hv h)
    have heq : i + (v :: vs).length = i + 1 + vs.length := by
      simp [List.length_cons]
      omega
    rw [heq]
    exact hrec

/-- The initial state satisfies the invariant at position 1. -/
theorem inv_init (v0 : ℚ) (rest : List ℚ) :
    Inv (v0 :: rest) ⟨false, false, 0, v0, v0, []⟩ 1 :=
  ⟨(fun hc => nomatch hc.1), le_refl v0, ⟨0, Nat.one_pos, rfl⟩, ⟨0, Nat.one_pos, rfl⟩,
    (fun hf => nomatch hf), (fun hf => nomatch hf), fun _ => Nat.one_pos,
    fun _ _ => rfl, (by simp), List.chain'_nil, (by simp), (by simp)⟩

/-- Every phase list produced by `segment` is an alternating chain of
well-formed phases. -/
theorem segment_inv (s : List ℚ) (t : ℚ) (ps : List Phase)
    (hs : segment s t = some ps) :
    ps.Chain' PhasesRel ∧ ∀ p ∈ ps, EmittedOK s p := by
  cases s with
  | nil => simp [segment, finalState] at hs
  | cons v0 rest =>
    have hinv : Inv (v0 :: rest) (loop t ⟨false, false, 0, v0, v0, []⟩ 1 rest)
        (1 + rest.length) :=
      inv_loop (v0 :: rest) t rest ⟨false, false, 0, v0, v0, []⟩ 1
        (le_refl 1) rfl (inv_init v0 rest)
    set st := loop t ⟨false, false, 0, v0, v0, []⟩ 1 rest with hst
    have hn : (v0 :: rest).length = 1 + rest.length := by
      simp [List.length_cons, Nat.add_comm]
    rw [← hn] at hinv
    have hps : flush st (v0 :: rest).length = ps := by
      simpa [segment, finalState] using hs
    have hn1 : 1 ≤ (v0 :: rest).length := by simp
    by_cases hbl : st.in_bull = true
    · have hsi : st.start_idx < (v0 :: rest).length := hinv.start_lt (Or.inl hbl)
      have hbundle := concat_phase_inv (v0 :: rest) st.phases
        (closeBull st ((v0 :: rest).length - 1)) (v0 :: rest).length
        hinv.chain hinv.closed_lt
        (fun q hq => by
          rw [(hinv.last_opp q hq).1 hbl]
          simp [closeBull])
        hinv.emitted
        (closeBull_ok (v0 :: rest) st ((v0 :: rest).length - 1) (by omega)
          (hinv.bull_ref hbl)
          (hinv.peak_mem.imp fun j hj => ⟨by omega, hj.2⟩) hinv.tr_le_pk)
        (fun q hq => lt_trans (hinv.closed_lt q hq) hsi)
        (by simp [closeBull])
      have hflush : flush st (v0 :: rest).length =
          st.phases ++ [closeBull st ((v0 :: rest).length - 1)] := by
        simp [flush, hbl]
      rw [← hps, hflush]
      exact ⟨hbundle.1, hbundle.2.2⟩
    · by_cases hbr : st.in_bear = true
      · have hsi : st.start_idx < (v0 :: rest).length := hinv.start_lt (Or.inr hbr)
        have hbundle := concat_phase_inv (v0 :: rest) st.phases
          (closeBear st ((v0 :: rest).length - 1)) (v0 :: rest).length
          hinv.chain hinv.closed_lt
          (fun q hq => by
            rw [(hinv.last_opp q hq).2 hbr]
            simp [closeBear])
          hinv.emitted
          (closeBear_ok (v0 :: rest) st ((v0 :: rest).length - 1) (by omega)
            (hinv.bear_ref hbr)
            (hinv.trough_mem.imp fun j hj => ⟨by omega, hj.2⟩) hinv.tr_le_pk)
          (fun q hq => lt_trans (hinv.closed_lt q hq) hsi)
          (by simp [closeBear])
        have hflush : flush st (v0 :: rest).length =
            st.phases ++ [closeBear st ((v0 :: rest).length - 1)] := by
          simp [flush, hbl, hbr]
        rw [← hps, hflush]
        exact ⟨hbundle.1, hbundle.2.2⟩
      · have hflush : flush st (v0 :: rest).length = st.phases := by
          simp [flush, hbl, hbr]
        rw [← hps, hflush]
        exact ⟨hinv.chain, hinv.emitted⟩

/-! ### Claim theorems -/

/-- Indexing a `zipWith` where both argument lists are defined. -/
theorem get?_zipWith {α β γ : Type} (f : α → β → γ) :
    ∀ (l1 : List α) (l2 : List β) (k : ℕ) (x : α) (y : β),
      l1.get? k = some x → l2.get? k = some y →
      (List.zipWith f l1 l2).get? k = some (f x y) := by
  intro l1
  induction l1 with
  | nil =>
    intro l2 k x y hx _
    simp at hx
  | cons a l1 ih =>
    intro l2 k x y hx hy
    cases l2 with
    | nil => simp at hy
    | cons b l2 =>
      cases k with
      | zero =>
        simp only [List.get?, Option.some.injEq] at hx hy
        subst hx
        subst hy
        rfl
      | succ k => exact ih l2 k x y hx hy

/-- C1: on the series `[100, 100, 121, 121, 95, 95]` with threshold `1/5`
the code does NOT produce the phases the spec scenario describes: the Bull
phase starts at index 2 (not 0), its reference low is 121 (not 100, since
the confirming value replaces the trough) and its magnitude is 0
(not 0.21); the flushed Bear phase has reference high 95 (not 121) and
magnitude 0 (not (95-121)/121). -/
theorem identify_scenario_differs_from_spec :
    identify_market_phases [100, 100, 121, 121, 95, 95] (1/5) =
      some ([⟨Kind.Bull, 2, 3, 121, 121, 0⟩], [⟨Kind.Bear, 4, 5, 95, 95, 0⟩]) ∧
    (2 : ℕ) ≠ 0 ∧ ((121 : ℚ) ≠ 100) ∧ ((0 : ℚ) ≠ 21/100) ∧
    ((95 : ℚ) ≠ 121) ∧ ((0 : ℚ) ≠ (95 - 121)/121) := by
  refine ⟨?_, by norm_num, by norm_num, by norm_num, by norm_num, by norm_num⟩
  norm_num [identify_market_phases, segment, finalState, loop, step, closeBull, closeBear,
    flush, List.filter, isBull, isBear]

/-- C1 (amended): the actual output on the scenario: one Bull phase over
`[2, 3]` with reference low = reference high = 121 and magnitude 0,
followed by one Bear phase over `[4, 5]` with reference high =
reference low = 95 and magnitude 0, flushed as open at series end. -/
theorem identify_scenario_actual :
    identify_market_phases [100, 100, 121, 121, 95, 95] (1/5) =
      some ([⟨Kind.Bull, 2, 3, 121, 121, 0⟩], [⟨Kind.Bear, 4, 5, 95, 95, 0⟩]) := by
  norm_num [identify_market_phases, segment, finalState, loop, step, closeBull, closeBear,
    flush, List.filter, isBull, isBear]

/-- C2: for every input series and threshold in (0,1), the merged phase
sequence is emitted in strictly increasing time order, consecutive phases
never share a kind, and every phase has `start_index <= end_index`. -/
theorem segment_ordered_alternating (s : List ℚ) (t : ℚ) (h0 : 0 < t) (h1 : t < 1)
    (ps : List Phase) (hs : segment s t = some ps) :
    ps.Chain' (fun p q => p.end_index < q.start_index ∧ p.kind ≠ q.kind) ∧
      ∀ p ∈ ps, p.start_index ≤ p.end_index := by
  obtain ⟨hch, hem⟩ := segment_inv s t ps hs
  exact ⟨hch, fun p hp => (hem p hp).1⟩

theorem segment_ordered_alternating_witness :
    (0 : ℚ) < 1/5 ∧ (1/5 : ℚ) < 1 ∧
      (List.Chain' (fun p q => p.end_index < q.start_index ∧ p.kind ≠ q.kind)
          [(⟨Kind.Bull, 1, 1, 121, 121, 0⟩ : Phase)] ∧
        ∀ p ∈ [(⟨Kind.Bull, 1, 1, 121, 121, 0⟩ : Phase)],
          p.start_index ≤ p.end_index) :=
  ⟨by norm_num, by norm_num,
    segment_ordered_alternating [100, 121] (1/5) (by norm_num) (by norm_num)
      [⟨Kind.Bull, 1, 1, 121, 121, 0⟩]
      (by norm_num [segment, finalState, loop, step, closeBull, closeBear, flush])⟩

/-- C3: for every series of positive values and threshold in (0,1), every
emitted Bull phase has nonnegative magnitude and every emitted Bear phase
has nonpositive magnitude. -/
theorem segment_magnitude_sign (s : List ℚ) (t : ℚ) (hpos : ∀ v ∈ s, 0 < v)
    (h0 : 0 < t) (h1 : t < 1) (ps : List Phase) (hs : segment s t = some ps) :
    ∀ p ∈ ps, (p.kind = Kind.Bull → 0 ≤ p.magnitude) ∧
      (p.kind = Kind.Bear → p.magnitude ≤ 0) := by
  obtain ⟨_, hem⟩ := segment_inv s t ps hs
  intro p hp
  obtain ⟨_, href1, _, hmag, hbl, hbr⟩ := hem p hp
  have hr1pos : 0 < p.ref1 := hpos p.ref1 (List.get?_mem href1)
  constructor
  · intro hk
    rw [hmag]
    exact div_nonneg (by linarith [hbl hk]) (le_of_lt hr1pos)
  · intro hk
    rw [hmag]
    exact div_nonpos_iff.mpr (Or.inr ⟨by linarith [hbr hk], le_of_lt hr1pos⟩)

theorem segment_magnitude_sign_witness :
    (∀ v ∈ ([100, 121] : List ℚ), 0 < v) ∧
      ∀ p ∈ [(⟨Kind.Bull, 1, 1, 121, 121, 0⟩ : Phase)],
        (p.kind = Kind.Bull → 0 ≤ p.magnitude) ∧
        (p.kind = Kind.Bear → p.magnitude ≤ 0) :=
  ⟨by norm_num,
    segment_magnitude_sign [100, 121] (1/5) (by norm_num) (by norm_num) (by norm_num)
      [⟨Kind.Bull, 1, 1, 121, 121, 0⟩]
      (by norm_num [segment, finalState, loop, step, closeBull, closeBear, flush])⟩

/-- C4 is false as stated: on `[200, 100, 50, 70]` with threshold `1/5` the
flushed Bull phase covers indices `[3, 3]` but its reference high is 100,
the running peak carried over from index 1, while the only value inside the
phase is `series[3] = 70`. -/
theorem segment_reference_outside_phase :
    segment [200, 100, 50, 70] (1/5) =
      some [⟨Kind.Bear, 1, 2, 100, 50, -(1/2)⟩, ⟨Kind.Bull, 3, 3, 70, 100, 3/7⟩] ∧
    Phase.reference_high ⟨Kind.Bull, 3, 3, 70, 100, 3/7⟩ = 100 ∧
    ([200, 100, 50, 70] : List ℚ).get? 3 = some 70 ∧ ((100 : ℚ) ≠ 70) := by
  refine ⟨?_, rfl, rfl, by norm_num⟩
  norm_num [segment, finalState, loop, step, closeBull, closeBear, flush]

/-- C4 (amended): the originating extremum (reference low of a Bull phase,
reference high of a Bear phase) is the series value at the phase's own
start index; the terminating extremum (reference high of a Bull phase,
reference low of a Bear phase) is a series value observed at some index no
later than the phase's end index, but possibly before its start index. -/
theorem segment_reference_values (s : List ℚ) (t : ℚ) (ps : List Phase)
    (hs : segment s t = some ps) :
    ∀ p ∈ ps,
      (p.kind = Kind.Bull → s.get? p.start_index = some (Phase.reference_low p) ∧
        ∃ j, j ≤ p.end_index ∧ s.get? j = some (Phase.reference_high p)) ∧
      (p.kind = Kind.Bear → s.get? p.start_index = some (Phase.reference_high p) ∧
        ∃ j, j ≤ p.end_index ∧ s.get? j = some (Phase.reference_low p)) := by
  obtain ⟨_, hem⟩ := segment_inv s t ps hs
  intro p hp
  obtain ⟨k, psi, pei, r1, r2, m⟩ := p
  obtain ⟨_, href1, href2, _, _, _⟩ := hem _ hp
  constructor
  · rintro rfl
    exact ⟨href1, href2⟩
  · rintro rfl
    exact ⟨href1, href2⟩

theorem segment_reference_values_witness :
    segment [100, 121] (1/5) = some [⟨Kind.Bull, 1, 1, 121, 121, 0⟩] ∧
      ∀ p ∈ [(⟨Kind.Bull, 1, 1, 121, 121, 0⟩ : Phase)],
        (p.kind = Kind.Bull →
          ([100, 121] : List ℚ).get? p.start_index = some (Phase.reference_low p) ∧
          ∃ j, j ≤ p.end_index ∧
            ([100, 121] : List ℚ).get? j = some (Phase.reference_high p)) ∧
        (p.kind = Kind.Bear →
          ([100, 121] : List ℚ).get? p.start_index = some (Phase.reference_high p) ∧
          ∃ j, j ≤ p.end_index ∧
            ([100, 121] : List ℚ).get? j = some (Phase.reference_low p)) :=
  ⟨by norm_num [segment, finalState, loop, step, closeBull, closeBear, flush],
    segment_reference_values [100, 121] (1/5) [⟨Kind.Bull, 1, 1, 121, 121, 0⟩]
      (by norm_num [segment, finalState, loop, step, closeBull, closeBear, flush])⟩

/-- C5: whenever the scan ends with an open phase (`mode` Bull or Bear),
the output contains exactly one additional phase beyond those already
closed, and the last emitted phase ends at the series' final index. -/
theorem segment_flushes_open_phase (s : List ℚ) (t : ℚ) (st : ScanState)
    (hst : finalState s t = some st)
    (hmode : st.in_bull = true ∨ st.in_bear = true) :
    ∃ ps, segment s t = some ps ∧ ps.length = st.phases.length + 1 ∧
      ∃ p, ps.getLast? = some p ∧ p.end_index = s.length - 1 := by
  refine ⟨flush st s.length, by simp [segment, hst], ?_, ?_⟩
  · by_cases hbl : st.in_bull = true
    · simp [flush, hbl]
    · have hbr : st.in_bear = true := hmode.resolve_left hbl
      simp [flush, hbl, hbr]
  · by_cases hbl : st.in_bull = true
    · exact ⟨closeBull st (s.length - 1), by simp [flush, hbl], rfl⟩
    · have hbr : st.in_bear = true := hmode.resolve_left hbl
      exact ⟨closeBear st (s.length - 1), by simp [flush, hbl, hbr], rfl⟩

theorem segment_flushes_open_phase_witness :
    finalState [100, 121] (1/5) = some ⟨true, false, 1, 121, 121, []⟩ ∧
      ∃ ps, segment [100, 121] (1/5) = some ps ∧ ps.length = 0 + 1 ∧
        ∃ p, ps.getLast? = some p ∧ p.end_index = ([100, 121] : List ℚ).length - 1 :=
  ⟨by norm_num [finalState, loop, step],
    segment_flushes_open_phase [100, 121] (1/5) ⟨true, false, 1, 121, 121, []⟩
      (by norm_num [finalState, loop, step]) (Or.inl rfl)⟩

/-- C6 is false as stated: `identify_market_phases` performs no threshold
validation; with threshold `3/2 >= 1` on `[100, 100]` it succeeds and
returns a result instead of failing. -/
theorem identify_accepts_invalid_threshold :
    identify_market_phases [100, 100] (3/2) = some ([], []) ∧ (1 : ℚ) ≤ 3/2 := by
  refine ⟨?_, by norm_num⟩
  norm_num [identify_market_phases, segment, finalState, loop, step, closeBull, closeBear,
    flush, List.filter, isBull, isBear]

/-- C6 (amended): the threshold parameter is not validated at all; for every
nonempty series and every threshold whatsoever the call succeeds. -/
theorem identify_no_threshold_validation (s : List ℚ) (t : ℚ) (hne : s ≠ []) :
    (identify_market_phases s t).isSome = true := by
  cases s with
  | nil => exact absurd rfl hne
  | cons v0 rest => simp [identify_market_phases, segment, finalState]

theorem identify_no_threshold_validation_witness :
    ([100, 100] : List ℚ) ≠ [] ∧
      (identify_market_phases [100, 100] (3/2)).isSome = true :=
  ⟨by simp, identify_no_threshold_validation [100, 100] (3/2) (by simp)⟩

/-- C7: a series with fewer than 2 points yields no phases: the empty
series fails (in the source, `series.iloc[0]` raises) and a one-point
series returns the empty pair of phase lists. -/
theorem identify_short_series (s : List ℚ) (t : ℚ) (h : s.length < 2) :
    (identify_market_phases s t = none ∨ identify_market_phases s t = some ([], [])) ∧
      (s = [] → identify_market_phases s t = none) ∧
      (s.length = 1 → identify_market_phases s t = some ([], [])) := by
  cases s with
  | nil => exact ⟨Or.inl rfl, fun _ => rfl, (fun h1 => nomatch h1)⟩
  | cons v0 rest =>
    cases rest with
    | nil =>
      refine ⟨Or.inr ?_, (by simp), fun _ => ?_⟩ <;>
        simp [identify_market_phases, segment, finalState, loop, flush]
    | cons v1 rest2 =>
      exfalso
      simp [List.length_cons] at h
      omega

theorem identify_short_series_witness :
    ([100] : List ℚ).length < 2 ∧
      ((identify_market_phases [100] (1/5) = none ∨
          identify_market_phases [100] (1/5) = some ([], [])) ∧
        (([100] : List ℚ) = [] → identify_market_phases [100] (1/5) = none) ∧
        (([100] : List ℚ).length = 1 →
          identify_market_phases [100] (1/5) = some ([], []))) :=
  ⟨by simp, identify_short_series [100] (1/5) (by simp)⟩

/-- C8 is false as stated: the derived field is the percentage change, 100
times the fractional change: on prices `[100, 150]` the stored value is 50
while the fractional change is `1/2`. -/
theorem price_pct_change_is_percent_not_fraction :
    price_pct_change [100, 150] = [none, some 50] ∧
      ((150 : ℚ) - 100) / 100 = 1/2 ∧ ((50 : ℚ) ≠ 1/2) := by
  refine ⟨?_, by norm_num, by norm_num⟩
  norm_num [price_pct_change]

/-- C8 (amended): at each position `k+1` the derived field equals
`(price[k+1] - price[k]) / price[k] * 100`, and it is absent (`none`) at
the first position. -/
theorem price_pct_change_formula (prices : List ℚ) (k : ℕ) (a b : ℚ)
    (ha : prices.get? (k + 1) = some a) (hb : prices.get? k = some b) :
    (price_pct_change prices).get? (k + 1) = some (some ((a - b) / b * 100)) ∧
      (price_pct_change prices).get? 0 = some none := by
  cases prices with
  | nil => simp at hb
  | cons p tail =>
    constructor
    · exact get?_zipWith (fun prev cur => some ((cur - prev) / prev * 100))
        (p :: tail) tail k b a hb ha
    · rfl

theorem price_pct_change_formula_witness :
    ([100, 150] : List ℚ).get? 1 = some 150 ∧
      ([100, 150] : List ℚ).get? 0 = some 100 ∧
      ((price_pct_change [100, 150]).get? 1 = some (some ((150 - 100) / 100 * 100)) ∧
        (price_pct_change [100, 150]).get? 0 = some none) :=
  ⟨rfl, rfl, price_pct_change_formula [100, 150] 0 150 100 rfl rfl⟩

/-- C9 is false as stated: the forecast reshaping performs no bounds check;
a row with `yhat_lower = 10 > yhat_upper = 1` inside the date window is
emitted unchanged, and the output is not empty. -/
theorem forecastWindow_emits_malformed_bounds :
    forecastWindow [⟨0, 5, 10, 1⟩] 0 0 = [⟨0, 5, 10, 1⟩] ∧
      ForecastRow.yhat_upper ⟨0, 5, 10, 1⟩ < ForecastRow.yhat_lower ⟨0, 5, 10, 1⟩ ∧
      forecastWindow [⟨0, 5, 10, 1⟩] 0 0 ≠ [] := by
  refine ⟨?_, by norm_num, ?_⟩ <;> norm_num [forecastWindow]

/-- C9 (amended): every model row whose timestamp lies in the requested
window is emitted unchanged, with no validation of its bounds. -/
theorem forecastWindow_passes_rows_unvalidated (rows : List ForecastRow)
    (lo hi : ℤ) (r : ForecastRow) (hmem : r ∈ rows) (hlo : lo ≤ r.ds)
    (hhi : r.ds ≤ hi) :
    r ∈ forecastWindow rows lo hi := by
  unfold forecastWindow
  rw [List.mem_filter]
  exact ⟨hmem, by simp [hlo, hhi]⟩

theorem forecastWindow_passes_rows_unvalidated_witness :
    (⟨0, 5, 10, 1⟩ : ForecastRow) ∈ ([⟨0, 5, 10, 1⟩] : List ForecastRow) ∧
      (⟨0, 5, 10, 1⟩ : ForecastRow) ∈ forecastWindow [⟨0, 5, 10, 1⟩] 0 0 :=
  ⟨by simp,
    forecastWindow_passes_rows_unvalidated [⟨0, 5, 10, 1⟩] 0 0 ⟨0, 5, 10, 1⟩
      (by simp) (by norm_num) (by norm_num)⟩

/-- C10: every emitted phase's originating extremum equals the series value
at its own start index: a Bull phase's reference low and a Bear phase's
reference high are the value of the confirming point. -/
theorem segment_confirming_value_is_reference (s : List ℚ) (t : ℚ)
    (h0 : 0 < t) (h1 : t < 1) (ps : List Phase) (hs : segment s t = some ps) :
    ∀ p ∈ ps,
      (p.kind = Kind.Bull → s.get? p.start_index = some (Phase.reference_low p)) ∧
      (p.kind = Kind.Bear → s.get? p.start_index = some (Phase.reference_high p)) := by
  obtain ⟨_, hem⟩ := segment_inv s t ps hs
  intro p hp
  obtain ⟨k, psi, pei, r1, r2, m⟩ := p
  obtain ⟨_, href1, _, _, _, _⟩ := hem _ hp
  constructor
  · rintro rfl
    exact href1
  · rintro rfl
    exact href1

theorem segment_confirming_value_is_reference_witness :
    (0 : ℚ) < 1/5 ∧ (1/5 : ℚ) < 1 ∧
      ∀ p ∈ [(⟨Kind.Bull, 1, 1, 121, 121, 0⟩ : Phase)],
        (p.kind = Kind.Bull →
          ([100, 121] : List ℚ).get? p.start_index = some (Phase.reference_low p)) ∧
        (p.kind = Kind.Bear →
          ([100, 121] : List ℚ).get? p.start_index = some (Phase.reference_high p)) :=
  ⟨by norm_num, by norm_num,
    segment_confirming_value_is_reference [100, 121] (1/5) (by norm_num) (by norm_num)
      [⟨Kind.Bull, 1, 1, 121, 121, 0⟩]
      (by norm_num [segment, finalState, loop, step, closeBull, closeBear, flush])⟩

end App
